import Mathlib

/-!
# ssv-rewards: proportional distribution, conservation check, ledger merge

A shallow embedding of the reward calculator in `cmd/calc.go`, the point-table
merge in `cmd/sum.go` and the running totals of `cmd/ssv-rewards/calc.go`.

* A Go `map[K]V` is a list of key/value entries whose keys are pairwise
  distinct.  The order of the list is the order in which a `range` statement
  visits the entries; Go leaves that order unspecified, so every statement
  about a `range` loop is made for every order.
* `*big.Int` is `Int`.  `big.Int.Div` is Euclidean division and panics on a
  zero divisor; `big.Int.Uint64` returns the low 64 bits of the magnitude.
* `common.HexToAddress` (go-ethereum) is a parameter `hexToAddress`.  Where a
  function is evaluated on a concrete table, an address is written as the key
  it comes from (`hexToAddress := id`); the keys used there are sent to
  distinct addresses by `HexToAddress`.
* Go `int` is a 64-bit two's complement integer; `float64` is a type
  parameter `F` and its addition a parameter `addF`.
* File reads and writes (`getPoints`, `writeJson`, `exportCSV`, the database
  queries) are outside the model: functions take the data they read as
  arguments and return the data they hand to the writers.
-/

namespace SsvRewards

/-! ## Go maps as association lists -/

/-- Lookup `m[k]` with the comma-ok result: the value of the first entry
whose key is `k`. -/
def mapGet {K V : Type} [DecidableEq K] : List (K × V) → K → Option V
  | [], _ => none
  | (k', v') :: m, k => if k' = k then some v' else mapGet m k

/-- Assignment `m[k] = v`: overwrite the entry of `k` when there is one,
otherwise add a new entry. -/
def mapSet {K V : Type} [DecidableEq K] : List (K × V) → K → V → List (K × V)
  | [], k, v => [(k, v)]
  | (k', v') :: m, k, v => if k' = k then (k', v) :: m else (k', v') :: mapSet m k v

/-- The keys of a map, in enumeration order. -/
def keys {K V : Type} (m : List (K × V)) : List K := m.map Prod.fst

/-- The exact sum of the amounts held by a map. -/
def sumValues {K : Type} (m : List (K × Int)) : Int := (m.map Prod.snd).sum

/-! ## Outcomes of a Go function returning `(value, error)` -/

/-- Result of running a Go function: a value, a returned `error`, or a
run-time panic that unwinds the program. -/
inductive Outcome (α : Type) where
  | ok (value : α)
  | error (msg : String)
  | panic (msg : String)
  deriving DecidableEq

/-! ## `math/big` -/

/-- Value of a decimal digit character, if it is one. -/
def digitValue (c : Char) : Option Nat :=
  if 48 ≤ c.toNat ∧ c.toNat ≤ 57 then some (c.toNat - 48) else none

/-- Scan of a digit sequence in base 10, most significant digit first,
with accumulator `acc`; fails on the first character that is not a digit. -/
def scanDigits : List Char → Nat → Option Nat
  | [], acc => some acc
  | c :: cs, acc =>
    match digitValue c with
    | none => none
    | some d => scanDigits cs (acc * 10 + d)

/-- Scan of an unsigned number: at least one digit, and only digits. -/
def scanNat (cs : List Char) : Option Nat :=
  match cs with
  | [] => none
  | _ :: _ => scanDigits cs 0

/-- The call `big.NewInt(0).SetString(s, 10)`: an optional sign `+` or `-`
followed by one or more decimal digits; the whole string has to be
consumed.  `none` is the `isOk == false` result. -/
def setString10 (s : String) : Option Int :=
  match s.toList with
  | '-' :: cs => (scanNat cs).map (fun n => -(n : Int))
  | '+' :: cs => (scanNat cs).map (fun n => (n : Int))
  | cs => (scanNat cs).map (fun n => (n : Int))

/-- The method `(*big.Int).Uint64`, which is `low64(x.abs)`: the low 64 bits
of the magnitude of `x`, the sign being dropped. -/
def uint64 (x : Int) : Nat := x.natAbs % 2 ^ 64

/-! ## `cmd/calc.go` -/

/-- The loop of `check` (lines 120-123): add every reward to `sum`. -/
def checkSum {A : Type} : List (A × Int) → Int → Int
  | [], sum => sum
  | (_, reward) :: rest, sum => checkSum rest (sum + reward)

/-- The function `check` (lines 119-131): `true` unless
`Sub(sum, totalAmount).Uint64()` differs from zero. -/
def check {A : Type} (rewards : List (A × Int)) (totalAmount : Int) : Bool :=
  let sum := checkSum rewards 0
  if ¬ (uint64 (sum - totalAmount) = 0) then false else true

/-- First loop of `distribute` (lines 158-167): parse every weight, store it
under the address of its key and add it to `totalPoints`; `none` when a
weight string does not parse. -/
def parseLoop {A : Type} [DecidableEq A] (hexToAddress : String → A) :
    List (String × String) → List (A × Int) → Int → Option (List (A × Int) × Int)
  | [], pointInfo, totalPoints => some (pointInfo, totalPoints)
  | (key, value) :: rest, pointInfo, totalPoints =>
    match setString10 value with
    | none => none
    | some point =>
      parseLoop hexToAddress rest (mapSet pointInfo (hexToAddress key) point)
        (totalPoints + point)

/-- Second loop of `distribute` (lines 173-183) over the entries of
`pointInfo` in the order the `range` visits them.  The entry reached with
`i == length-1` takes `totalAmount - totalAssigned` and ends the loop; every
earlier entry takes `Div(Mul(totalAmount, point), totalPoints)`, which panics
when `totalPoints` is zero. -/
def assignLoop {A : Type} [DecidableEq A] (totalAmount totalPoints : Int) (length : Nat) :
    List (A × Int) → Nat → Int → List (A × Int) → Outcome (List (A × Int))
  | [], _, _, rewardInfo => Outcome.ok rewardInfo
  | (addr, point) :: rest, i, totalAssigned, rewardInfo =>
    if i + 1 = length then
      Outcome.ok (mapSet rewardInfo addr (totalAmount - totalAssigned))
    else if totalPoints = 0 then
      Outcome.panic "division by zero"
    else
      let reward := totalAmount * point / totalPoints
      assignLoop totalAmount totalPoints length rest (i + 1) (totalAssigned + reward)
        (mapSet rewardInfo addr reward)

/-- The function `distribute` (lines 155-186).  `points` lists the weight
table in the order of the first `range`; `rangeOrder` gives the order in
which the second `range` visits `pointInfo`. -/
def distribute {A : Type} [DecidableEq A] (hexToAddress : String → A)
    (rangeOrder : List (A × Int) → List (A × Int))
    (points : List (String × String)) (totalAmount : Int) : Outcome (List (A × Int)) :=
  match parseLoop hexToAddress points [] 0 with
  | none => Outcome.error "amount parsing failed"
  | some (pointInfo, totalPoints) =>
    assignLoop totalAmount totalPoints pointInfo.length (rangeOrder pointInfo) 0 0 []

/-- Lines 84-88 of `calcReward`: copy every entry of `nethRewardInfo` into
`finalRewardInfo`. -/
def copyLoop {A : Type} [DecidableEq A] : List (A × Int) → List (A × Int) → List (A × Int)
  | [], finalRewardInfo => finalRewardInfo
  | (key, value) :: rest, finalRewardInfo => copyLoop rest (mapSet finalRewardInfo key value)

/-- Lines 90-97 of `calcReward`: an entry of `rnethRewardInfo` whose key is
already in `finalRewardInfo` stores `Add(value, v)`, any other is stored as
it is. -/
def addLoop {A : Type} [DecidableEq A] : List (A × Int) → List (A × Int) → List (A × Int)
  | [], finalRewardInfo => finalRewardInfo
  | (key, value) :: rest, finalRewardInfo =>
    match mapGet finalRewardInfo key with
    | some v => addLoop rest (mapSet finalRewardInfo key (value + v))
    | none => addLoop rest (mapSet finalRewardInfo key value)

/-- The merge of `calcReward` (lines 83-97): `finalRewardInfo` built from
`nethRewardInfo` and `rnethRewardInfo`. -/
def mergeRewardInfo {A : Type} [DecidableEq A] (nethRewardInfo rnethRewardInfo : List (A × Int)) :
    List (A × Int) :=
  addLoop rnethRewardInfo (copyLoop nethRewardInfo [])

/-- The final check of `calcReward` (lines 99-101) on the merged ledger. -/
def finalCheck {A : Type} [DecidableEq A] (nethRewardInfo rnethRewardInfo : List (A × Int))
    (nethTotalAmount rnethTotalAmount : Int) : Bool :=
  check (mergeRewardInfo nethRewardInfo rnethRewardInfo) (rnethTotalAmount + nethTotalAmount)

/-! ## `cmd/sum.go` -/

/-- Lines 47-54 of `sumReward`: parse the first table into `totalPoints`. -/
def sumLoop1 {A : Type} [DecidableEq A] (hexToAddress : String → A) :
    List (String × String) → List (A × Int) → Option (List (A × Int))
  | [], totalPoints => some totalPoints
  | (key, value) :: rest, totalPoints =>
    match setString10 value with
    | none => none
    | some point => sumLoop1 hexToAddress rest (mapSet totalPoints (hexToAddress key) point)

/-- Lines 55-66 of `sumReward`: add the second table into `totalPoints`. -/
def sumLoop2 {A : Type} [DecidableEq A] (hexToAddress : String → A) :
    List (String × String) → List (A × Int) → Option (List (A × Int))
  | [], totalPoints => some totalPoints
  | (key2, value2) :: rest, totalPoints =>
    match setString10 value2 with
    | none => none
    | some point2 =>
      match mapGet totalPoints (hexToAddress key2) with
      | some cur =>
        sumLoop2 hexToAddress rest (mapSet totalPoints (hexToAddress key2) (cur + point2))
      | none => sumLoop2 hexToAddress rest (mapSet totalPoints (hexToAddress key2) point2)

/-- The table `totalPoints` that `sumReward` (lines 46-66) hands to the
writer, or its error. -/
def sumReward {A : Type} [DecidableEq A] (hexToAddress : String → A)
    (total1Points total2Points : List (String × String)) : Outcome (List (A × Int)) :=
  match sumLoop1 hexToAddress total1Points [] with
  | none => Outcome.error "amount parsing failed"
  | some totalPoints =>
    match sumLoop2 hexToAddress total2Points totalPoints with
    | none => Outcome.error "amount parsing failed"
    | some totalPoints => Outcome.ok totalPoints

/-! ## `cmd/ssv-rewards/calc.go` -/

/-- The Go `int` that holds the low 64 bits of the exact integer `x`, read
as two's complement. -/
def wrapInt (x : Int) : Int := (x + 2 ^ 63) % 2 ^ 64 - 2 ^ 63

/-- Addition of two Go `int` values: 64-bit two's complement, wrapping. -/
def addInt (x y : Int) : Int := wrapInt (x + y)

/-- A value that a Go `int` can hold. -/
def isInt (x : Int) : Prop := -(2 ^ 63) ≤ x ∧ x < 2 ^ 63

instance (x : Int) : Decidable (isInt x) := by unfold isInt; infer_instance

/-- The struct `OwnerReward`; `F` stands for `float64`. -/
structure OwnerReward (F : Type) where
  OwnerAddress : String
  NumberOfValidators : Int
  TotalAccruedDays : Int
  TotalSSVReward : F
  deriving DecidableEq

/-- The struct `ValidatorReward`. -/
structure ValidatorReward (F : Type) where
  OwnerAddress : String
  PublicKey : String
  AccruedDays : Int
  SSVReward : F
  deriving DecidableEq

/-- The local struct `totalOwnerReward` of `Run`. -/
structure totalOwnerReward (F : Type) where
  OwnerAddress : String
  TotalAccruedDays : Int
  TotalSSVReward : F
  deriving DecidableEq

/-- The local struct `monthlyOwnerReward` of `Run`. -/
structure monthlyOwnerReward (F : Type) where
  Month : String
  toOwnerReward : OwnerReward F
  deriving DecidableEq

/-- The local struct `monthlyValidatorReward` of `Run`. -/
structure monthlyValidatorReward (F : Type) where
  Month : String
  toValidatorReward : ValidatorReward F
  deriving DecidableEq

/-- The variables of `Run` that the month loop updates (lines 91-99). -/
structure RunState (F : Type) where
  allOwnerRewards : List (monthlyOwnerReward F)
  totalOwnerRewards : List (String × totalOwnerReward F)
  allValidatorRewards : List (monthlyValidatorReward F)
  totalValidatorRewards : List (String × ValidatorReward F)
  deriving DecidableEq

/-- What the query layer returns for one month: the month label and the
rows of `monthlyOwnerRewards` and `monthlyValidatorRewards`. -/
structure MonthData (F : Type) where
  month : String
  ownerRewards : List (OwnerReward F)
  validatorRewards : List (ValidatorReward F)
  deriving DecidableEq

/-- The state before the first month: both slices nil, both maps empty. -/
def initState (F : Type) : RunState F :=
  { allOwnerRewards := [], totalOwnerRewards := [],
    allValidatorRewards := [], totalValidatorRewards := [] }

/-- One iteration of the owner loop (lines 114-129). -/
def ownerStep {F : Type} (addF : F → F → F) (month : String) (st : RunState F)
    (ownerReward : OwnerReward F) : RunState F :=
  let all := st.allOwnerRewards ++ [monthlyOwnerReward.mk month ownerReward]
  match mapGet st.totalOwnerRewards ownerReward.OwnerAddress with
  | some total =>
    let total1 : totalOwnerReward F :=
      { OwnerAddress := total.OwnerAddress,
        TotalAccruedDays := addInt total.TotalAccruedDays ownerReward.TotalAccruedDays,
        TotalSSVReward := addF total.TotalSSVReward ownerReward.TotalSSVReward }
    { st with
      allOwnerRewards := all,
      totalOwnerRewards := mapSet st.totalOwnerRewards ownerReward.OwnerAddress total1 }
  | none =>
    let total1 : totalOwnerReward F :=
      { OwnerAddress := ownerReward.OwnerAddress,
        TotalAccruedDays := ownerReward.TotalAccruedDays,
        TotalSSVReward := ownerReward.TotalSSVReward }
    { st with
      allOwnerRewards := all,
      totalOwnerRewards := mapSet st.totalOwnerRewards ownerReward.OwnerAddress total1 }

/-- One iteration of the validator loop (lines 138-154). -/
def validatorStep {F : Type} (addF : F → F → F) (month : String) (st : RunState F)
    (validatorReward : ValidatorReward F) : RunState F :=
  let all := st.allValidatorRewards ++ [monthlyValidatorReward.mk month validatorReward]
  match mapGet st.totalValidatorRewards validatorReward.PublicKey with
  | some total =>
    let total1 : ValidatorReward F :=
      { OwnerAddress := total.OwnerAddress,
        PublicKey := total.PublicKey,
        AccruedDays := addInt total.AccruedDays validatorReward.AccruedDays,
        SSVReward := addF total.SSVReward validatorReward.SSVReward }
    { st with
      allValidatorRewards := all,
      totalValidatorRewards := mapSet st.totalValidatorRewards validatorReward.PublicKey total1 }
  | none =>
    let total1 : ValidatorReward F :=
      { OwnerAddress := validatorReward.OwnerAddress,
        PublicKey := validatorReward.PublicKey,
        AccruedDays := validatorReward.AccruedDays,
        SSVReward := validatorReward.SSVReward }
    { st with
      allValidatorRewards := all,
      totalValidatorRewards := mapSet st.totalValidatorRewards validatorReward.PublicKey total1 }

/-- The body of the month loop (lines 101-185) as far as it updates the
running totals, for a month whose queries and exports all succeed (a failing
one makes `Run` return its error at once). -/
def monthStep {F : Type} (addF : F → F → F) (st : RunState F) (m : MonthData F) : RunState F :=
  (m.validatorRewards).foldl (validatorStep addF m.month)
    ((m.ownerRewards).foldl (ownerStep addF m.month) st)

/-- The month loop of `Run` over the months `from .. to` in order. -/
def runMonths {F : Type} (addF : F → F → F) (months : List (MonthData F)) : RunState F :=
  months.foldl (monthStep addF) (initState F)

example : mergeRewardInfo [("A", 3), ("B", 7)] [("B", 2), ("C", 8)]
    = [("A", 3), ("B", 9), ("C", 8)] := by decide
example : finalCheck [("A", 3), ("B", 7)] [("B", 2), ("C", 8)] 10 10 = true := by decide
example : sumReward id [("A", "3"), ("B", "7")] [("B", "2"), ("C", "8")]
    = Outcome.ok [("A", 3), ("B", 9), ("C", 8)] := by decide
example : (runMonths Nat.add
    [⟨"2023-10", [⟨"A", 1, 2 ^ 62, 0⟩], []⟩, ⟨"2023-11", [⟨"A", 1, 2 ^ 62, 0⟩], []⟩]).totalOwnerRewards
    = [("A", ⟨"A", -(2 ^ 63), 0⟩)] := by decide
/-! ## Reading a weight table -/

/-- The table `weights` is what the weight file `points` denotes: entry by
entry, the address of the key and the integer its weight string parses to. -/
def Denotes {A : Type} (hexToAddress : String → A) (points : List (String × String))
    (weights : List (A × Int)) : Prop :=
  List.Forall₂ (fun kv e => hexToAddress kv.1 = e.1 ∧ setString10 kv.2 = some e.2) points weights

/-- Amount held by a merged ledger for an identity that holds `x` in the
first ledger and `y` in the second (`none`: no entry). -/
def mergeValue : Option Int → Option Int → Option Int
  | some x, some y => some (y + x)
  | some x, none => some x
  | none, some y => some y
  | none, none => none

/-- The amounts of the participants enumerated before the last one: each
entry of `init` with `Div(Mul(totalAmount, point), totalPoints)`. -/
def floorShares {A : Type} (totalAmount totalPoints : Int) (init : List (A × Int)) :
    List (A × Int) :=
  init.map (fun e => (e.1, totalAmount * e.2 / totalPoints))

/-- The mapping `m` is the pointwise merge of the ledgers `a` and `b`: its
identities are pairwise distinct and are exactly those of `a` and of `b`; an
identity only in `a` holds the amount of `a`, one only in `b` the amount of
`b`, and one in both the sum of the two amounts. -/
def PointwiseMerge {A : Type} [DecidableEq A] (a b m : List (A × Int)) : Prop :=
  (keys m).Nodup
    ∧ (∀ k, k ∈ keys m ↔ k ∈ keys a ∨ k ∈ keys b)
    ∧ (∀ k x, mapGet a k = some x → mapGet b k = none → mapGet m k = some x)
    ∧ (∀ k y, mapGet a k = none → mapGet b k = some y → mapGet m k = some y)
    ∧ (∀ k x y, mapGet a k = some x → mapGet b k = some y → mapGet m k = some (x + y))

/-! ## Records seen by the monthly aggregator -/

/-- Every owner record of the months, in processing order. -/
def ownerRecords {F : Type} (months : List (MonthData F)) : List (OwnerReward F) :=
  (months.map (fun m => m.ownerRewards)).flatten

/-- Every validator record of the months, in processing order. -/
def validatorRecords {F : Type} (months : List (MonthData F)) : List (ValidatorReward F) :=
  (months.map (fun m => m.validatorRewards)).flatten

/-- Exact sum of the field `days` over the records whose identity `key` is `k`. -/
def daysOf {R : Type} (key : R → String) (days : R → Int) (records : List R) (k : String) : Int :=
  ((records.filter (fun r => decide (key r = k))).map days).sum

/-- Exact sum of `TotalAccruedDays` over the owner records of `owner`. -/
def ownerDays {F : Type} (records : List (OwnerReward F)) (owner : String) : Int :=
  daysOf (fun r => r.OwnerAddress) (fun r => r.TotalAccruedDays) records owner

/-- Exact sum of `AccruedDays` over the validator records of `publicKey`. -/
def validatorDays {F : Type} (records : List (ValidatorReward F)) (publicKey : String) : Int :=
  daysOf (fun r => r.PublicKey) (fun r => r.AccruedDays) records publicKey

/-- Common shape of the two running-total updates: the record `r` updates the
entry of its identity when there is one and creates it otherwise. -/
def accStep {R T : Type} (key : R → String) (create : R → T) (update : T → R → T)
    (m : List (String × T)) (r : R) : List (String × T) :=
  match mapGet m (key r) with
  | some t => mapSet m (key r) (update t r)
  | none => mapSet m (key r) (create r)

/-- The entry that lines 123-127 create for an owner record. -/
def ownerCreate {F : Type} (r : OwnerReward F) : totalOwnerReward F :=
  { OwnerAddress := r.OwnerAddress,
    TotalAccruedDays := r.TotalAccruedDays,
    TotalSSVReward := r.TotalSSVReward }

/-- The entry after lines 120-121 have added an owner record into it. -/
def ownerUpdate {F : Type} (addF : F → F → F) (t : totalOwnerReward F) (r : OwnerReward F) :
    totalOwnerReward F :=
  { OwnerAddress := t.OwnerAddress,
    TotalAccruedDays := addInt t.TotalAccruedDays r.TotalAccruedDays,
    TotalSSVReward := addF t.TotalSSVReward r.TotalSSVReward }

/-- The entry after lines 144-145 have added a validator record into it. -/
def validatorUpdate {F : Type} (addF : F → F → F) (t r : ValidatorReward F) :
    ValidatorReward F :=
  { OwnerAddress := t.OwnerAddress,
    PublicKey := t.PublicKey,
    AccruedDays := addInt t.AccruedDays r.AccruedDays,
    SSVReward := addF t.SSVReward r.SSVReward }

/-- Two months of records on which the running totals are evaluated. -/
def sampleMonths : List (MonthData Unit) :=
  [ { month := "2023-10",
      ownerRewards := [⟨"A", 2, 40, ()⟩, ⟨"B", 1, 31, ()⟩],
      validatorRewards := [⟨"A", "pk1", 20, ()⟩, ⟨"A", "pk2", 20, ()⟩, ⟨"B", "pk3", 31, ()⟩] },
    { month := "2023-11",
      ownerRewards := [⟨"A", 2, 60, ()⟩],
      validatorRewards := [⟨"A", "pk1", 30, ()⟩, ⟨"A", "pk2", 30, ()⟩] } ]

/-! ## Lemmas on maps -/

theorem mapGet_eq_none_iff {K V : Type} [DecidableEq K] (m : List (K × V)) (k : K) :
    mapGet m k = none ↔ k ∉ keys m := by
  induction m with
  | nil => simp [mapGet, keys]
  | cons e m ih =>
    obtain ⟨k', v'⟩ := e
    by_cases h : k' = k
    · simp [mapGet, keys, h]
    · have h' : ¬ k = k' := fun hh => h hh.symm
      simp only [mapGet, h, if_false, ih, keys, List.map_cons, List.mem_cons, h', false_or]

theorem mapGet_isSome_iff {K V : Type} [DecidableEq K] (m : List (K × V)) (k : K) :
    (mapGet m k).isSome = true ↔ k ∈ keys m := by
  rw [← not_iff_not, ← mapGet_eq_none_iff]
  cases mapGet m k <;> simp

theorem mapSet_of_not_mem {K V : Type} [DecidableEq K] (m : List (K × V)) (k : K) (v : V)
    (h : k ∉ keys m) : mapSet m k v = m ++ [(k, v)] := by
  induction m with
  | nil => rfl
  | cons e m ih =>
    obtain ⟨k', v'⟩ := e
    simp only [keys, List.map_cons, List.mem_cons, not_or] at h
    have h1 : ¬ k' = k := fun hh => h.1 hh.symm
    simp only [mapSet, h1, if_false, List.cons_append]
    rw [ih h.2]

theorem mapGet_mapSet_self {K V : Type} [DecidableEq K] (m : List (K × V)) (k : K) (v : V) :
    mapGet (mapSet m k v) k = some v := by
  induction m with
  | nil => simp [mapSet, mapGet]
  | cons e m ih =>
    obtain ⟨k', v'⟩ := e
    by_cases h : k' = k
    · simp [mapSet, mapGet, h]
    · simp [mapSet, mapGet, h, ih]

theorem mapGet_mapSet_ne {K V : Type} [DecidableEq K] (m : List (K × V)) (k k1 : K) (v : V)
    (hne : k ≠ k1) : mapGet (mapSet m k v) k1 = mapGet m k1 := by
  induction m with
  | nil => simp [mapSet, mapGet, hne]
  | cons e m ih =>
    obtain ⟨k', v'⟩ := e
    by_cases h : k' = k
    · subst h
      simp [mapSet, mapGet, hne]
    · by_cases h1 : k' = k1
      · subst h1
        simp only [mapSet, h, if_false, mapGet, if_true]
      · simp only [mapSet, h, if_false, mapGet, h1, ih]

theorem mapGet_mapSet {K V : Type} [DecidableEq K] (m : List (K × V)) (k k1 : K) (v : V) :
    mapGet (mapSet m k v) k1 = if k = k1 then some v else mapGet m k1 := by
  by_cases h : k = k1
  · subst h
    simp [mapGet_mapSet_self]
  · simp [h, mapGet_mapSet_ne m k k1 v h]

theorem keys_mapSet_of_mem {K V : Type} [DecidableEq K] (m : List (K × V)) (k : K) (v : V)
    (h : k ∈ keys m) : keys (mapSet m k v) = keys m := by
  induction m with
  | nil => simp [keys] at h
  | cons e m ih =>
    obtain ⟨k', v'⟩ := e
    by_cases h1 : k' = k
    · simp [mapSet, keys, h1]
    · have h2 : k ∈ keys m := by
        simp only [keys, List.map_cons, List.mem_cons] at h
        rcases h with h | h
        · exact absurd h.symm h1
        · exact h
      have := ih h2
      simp only [keys] at this
      simp [mapSet, keys, h1, this]

theorem mem_keys_mapSet {K V : Type} [DecidableEq K] (m : List (K × V)) (k k1 : K) (v : V) :
    k1 ∈ keys (mapSet m k v) ↔ k1 = k ∨ k1 ∈ keys m := by
  rw [← mapGet_isSome_iff, ← mapGet_isSome_iff, mapGet_mapSet]
  by_cases h : k = k1
  · simp [h]
  · have h' : ¬ k1 = k := fun hh => h hh.symm
    simp [h, h']

theorem nodup_keys_mapSet {K V : Type} [DecidableEq K] (m : List (K × V)) (k : K) (v : V)
    (h : (keys m).Nodup) : (keys (mapSet m k v)).Nodup := by
  by_cases hk : k ∈ keys m
  · rw [keys_mapSet_of_mem m k v hk]
    exact h
  · rw [mapSet_of_not_mem m k v hk]
    simp only [keys, List.map_append, List.map_cons, List.map_nil]
    rw [List.nodup_append]
    refine ⟨h, List.nodup_singleton k, ?_⟩
    intro a ha hb
    simp only [List.mem_singleton] at hb
    subst hb
    exact hk ha

theorem sumValues_append {K : Type} (m1 m2 : List (K × Int)) :
    sumValues (m1 ++ m2) = sumValues m1 + sumValues m2 := by
  simp [sumValues]

theorem sumValues_cons {K : Type} (e : K × Int) (m : List (K × Int)) :
    sumValues (e :: m) = e.2 + sumValues m := by
  simp [sumValues]

theorem sumValues_mapSet {K : Type} [DecidableEq K] (m : List (K × Int)) (k : K) (v : Int) :
    sumValues (mapSet m k v) = sumValues m + v - (mapGet m k).getD 0 := by
  induction m with
  | nil => simp [mapSet, mapGet, sumValues]
  | cons e m ih =>
    obtain ⟨k', v'⟩ := e
    by_cases h : k' = k
    · simp only [mapSet, mapGet, h, if_true, sumValues_cons, Option.getD_some]
      ring
    · simp only [mapSet, mapGet, h, if_false, sumValues_cons, ih]
      ring

theorem sumValues_perm {K : Type} (m1 m2 : List (K × Int)) (h : m1.Perm m2) :
    sumValues m1 = sumValues m2 := by
  unfold sumValues
  exact (h.map Prod.snd).sum_eq

/-! ## Lemmas on `check` -/

theorem checkSum_eq {A : Type} (rewards : List (A × Int)) (sum : Int) :
    checkSum rewards sum = sum + sumValues rewards := by
  induction rewards generalizing sum with
  | nil => simp [checkSum, sumValues]
  | cons e rest ih =>
    obtain ⟨a, r⟩ := e
    simp only [checkSum, ih, sumValues_cons]
    ring

theorem check_eq_true_iff {A : Type} (rewards : List (A × Int)) (totalAmount : Int) :
    check rewards totalAmount = true ↔ (sumValues rewards - totalAmount).natAbs % 2 ^ 64 = 0 := by
  simp [check, uint64, checkSum_eq]

theorem check_of_sum_eq {A : Type} (rewards : List (A × Int)) (totalAmount : Int)
    (h : sumValues rewards = totalAmount) : check rewards totalAmount = true := by
  rw [check_eq_true_iff, h]
  simp

/-- C2: `check` does not compare exactly.  For the empty reward mapping and
the total 2^64 the exact sum is 0, which differs from the total, and `check`
still returns true, because `Uint64` keeps only the low 64 bits of the
difference. -/
theorem check_accepts_mismatch :
    check ([] : List (String × Int)) (2 ^ 64) = true
      ∧ sumValues ([] : List (String × Int)) ≠ 2 ^ 64 := by
  constructor
  · decide
  · decide

/-! ## Lemmas on `distribute` -/

theorem keys_append {K V : Type} (m1 m2 : List (K × V)) :
    keys (m1 ++ m2) = keys m1 ++ keys m2 := by
  simp [keys]

theorem keys_floorShares {A : Type} (totalAmount totalPoints : Int) (init : List (A × Int)) :
    keys (floorShares totalAmount totalPoints init) = keys init := by
  simp [keys, floorShares, Function.comp_def]

theorem parseLoop_denotes {A : Type} [DecidableEq A] (hexToAddress : String → A)
    (points : List (String × String)) (weights : List (A × Int))
    (hden : Denotes hexToAddress points weights) :
    ∀ (pointInfo : List (A × Int)) (totalPoints : Int),
      (keys (pointInfo ++ weights)).Nodup →
      parseLoop hexToAddress points pointInfo totalPoints
        = some (pointInfo ++ weights, totalPoints + sumValues weights) := by
  unfold Denotes at hden
  induction hden with
  | nil =>
    intro pointInfo totalPoints _
    simp [parseLoop, sumValues]
  | @cons kv e ps ws hhead _ ih =>
    intro pointInfo totalPoints hnodup
    obtain ⟨key, value⟩ := kv
    obtain ⟨hkey, hval⟩ := hhead
    simp only at hkey hval
    have hnot : e.1 ∉ keys pointInfo := by
      rw [keys_append, List.nodup_append] at hnodup
      intro hmem
      exact hnodup.2.2 hmem (by simp [keys])
    have hnodup' : (keys ((pointInfo ++ [(e.1, e.2)]) ++ ws)).Nodup := by
      simpa [keys] using hnodup
    simp only [parseLoop, hval, hkey]
    rw [mapSet_of_not_mem pointInfo e.1 e.2 hnot, ih _ _ hnodup']
    simp [sumValues_cons, add_assoc]

theorem assignLoop_spec {A : Type} [DecidableEq A] (totalAmount totalPoints : Int) (length : Nat)
    (last : A × Int) (init : List (A × Int)) :
    ∀ (i : Nat) (totalAssigned : Int) (rewardInfo : List (A × Int)),
      (init = [] ∨ totalPoints ≠ 0) →
      i + (init.length + 1) = length →
      (keys (rewardInfo ++ (init ++ [last]))).Nodup →
      assignLoop totalAmount totalPoints length (init ++ [last]) i totalAssigned rewardInfo
        = Outcome.ok (rewardInfo ++ (floorShares totalAmount totalPoints init
            ++ [(last.1, totalAmount
                - (totalAssigned + sumValues (floorShares totalAmount totalPoints init)))])) := by
  induction init with
  | nil =>
    intro i totalAssigned rewardInfo _ hlen hnodup
    have hnot : last.1 ∉ keys rewardInfo := by
      rw [keys_append, List.nodup_append] at hnodup
      intro hmem
      exact hnodup.2.2 hmem (by simp [keys])
    have hi : i + 1 = length := by simpa using hlen
    simp only [List.nil_append, assignLoop, hi, if_true]
    rw [mapSet_of_not_mem rewardInfo last.1 _ hnot]
    simp [floorShares, sumValues]
  | cons e init ih =>
    intro i totalAssigned rewardInfo hS hlen hnodup
    have hS' : totalPoints ≠ 0 := by
      rcases hS with h | h
      · exact absurd h (List.cons_ne_nil e init)
      · exact h
    have hi : ¬ (i + 1 = length) := by
      simp only [List.length_cons] at hlen
      omega
    have hnot : e.1 ∉ keys rewardInfo := by
      rw [keys_append, List.nodup_append] at hnodup
      intro hmem
      exact hnodup.2.2 hmem (by simp [keys])
    have hnodup' : (keys ((rewardInfo ++ [(e.1, totalAmount * e.2 / totalPoints)])
        ++ (init ++ [last]))).Nodup := by
      simpa [keys] using hnodup
    have hlen' : (i + 1) + (init.length + 1) = length := by
      simp only [List.length_cons] at hlen
      omega
    simp only [List.cons_append, assignLoop, hi, hS', if_false]
    rw [show init.append [last] = init ++ [last] from rfl,
      mapSet_of_not_mem rewardInfo e.1 _ hnot, ih _ _ _ (Or.inr hS') hlen' hnodup']
    simp [floorShares, sumValues, add_assoc]

theorem distribute_eq {A : Type} [DecidableEq A] (hexToAddress : String → A)
    (rangeOrder : List (A × Int) → List (A × Int))
    (points : List (String × String)) (weights : List (A × Int)) (totalAmount : Int)
    (init : List (A × Int)) (last : A × Int)
    (hden : Denotes hexToAddress points weights) (hnodup : (keys weights).Nodup)
    (horder : (rangeOrder weights).Perm weights)
    (hsplit : rangeOrder weights = init ++ [last])
    (hS : init = [] ∨ sumValues weights ≠ 0) :
    distribute hexToAddress rangeOrder points totalAmount
      = Outcome.ok (floorShares totalAmount (sumValues weights) init
          ++ [(last.1, totalAmount
              - sumValues (floorShares totalAmount (sumValues weights) init))]) := by
  have hparse := parseLoop_denotes hexToAddress points weights hden [] 0 (by simpa using hnodup)
  simp only [List.nil_append, zero_add] at hparse
  have hlen : weights.length = init.length + 1 := by
    rw [← horder.length_eq, hsplit]
    simp
  have hnd : (keys (([] : List (A × Int)) ++ (init ++ [last]))).Nodup := by
    rw [List.nil_append, ← hsplit]
    exact (List.Perm.nodup_iff (horder.map Prod.fst)).mpr hnodup
  have hloop := assignLoop_spec totalAmount (sumValues weights) weights.length last init 0 0 []
    hS (by omega) hnd
  simp only [distribute, hparse, hsplit, hloop]
  simp

theorem sumValues_pos {A : Type} (weights : List (A × Int))
    (hnonneg : ∀ e ∈ weights, 0 ≤ e.2) (hpos : ∃ e ∈ weights, 0 < e.2) :
    0 < sumValues weights := by
  induction weights with
  | nil => simp at hpos
  | cons e ws ih =>
    rw [sumValues_cons]
    have he : 0 ≤ e.2 := hnonneg e (List.mem_cons_self e ws)
    have hws : 0 ≤ sumValues ws :=
      List.sum_nonneg (by
        intro x hx
        simp only [List.mem_map] at hx
        obtain ⟨y, hy, rfl⟩ := hx
        exact hnonneg y (List.mem_cons_of_mem e hy))
    obtain ⟨x, hx, hxpos⟩ := hpos
    rcases List.mem_cons.mp hx with h | h
    · subst h
      omega
    · have := ih (fun y hy => hnonneg y (List.mem_cons_of_mem e hy)) ⟨x, h, hxpos⟩
      omega

theorem exists_init_last {α : Type} (l : List α) (h : l ≠ []) :
    ∃ init last, l = init ++ [last] :=
  ⟨l.dropLast, l.getLast h, (List.dropLast_append_getLast h).symm⟩

/-- C1: conservation of `distribute`.  For a weight table with distinct
identities, non-negative weights of which one is positive, a total that is
not negative and any order of enumeration, `distribute` returns a mapping
whose amounts sum exactly to the total. -/
theorem distribute_conservation {A : Type} [DecidableEq A] (hexToAddress : String → A)
    (rangeOrder : List (A × Int) → List (A × Int))
    (points : List (String × String)) (weights : List (A × Int)) (totalAmount : Int)
    (hden : Denotes hexToAddress points weights) (hnodup : (keys weights).Nodup)
    (hnonneg : ∀ e ∈ weights, 0 ≤ e.2) (hpos : ∃ e ∈ weights, 0 < e.2)
    (htotal : 0 ≤ totalAmount)
    (horder : ∀ m, (rangeOrder m).Perm m) :
    ∃ rewardInfo, distribute hexToAddress rangeOrder points totalAmount = Outcome.ok rewardInfo
      ∧ sumValues rewardInfo = totalAmount := by
  have _ := htotal
  have hS : 0 < sumValues weights := sumValues_pos weights hnonneg hpos
  have hne : rangeOrder weights ≠ [] := by
    intro h
    have hp := horder weights
    rw [h] at hp
    obtain ⟨e, he, _⟩ := hpos
    rw [List.nil_perm.mp hp] at he
    simp at he
  obtain ⟨init, last, hsplit⟩ := exists_init_last (rangeOrder weights) hne
  refine ⟨_, distribute_eq hexToAddress rangeOrder points weights totalAmount init last hden
    hnodup (horder weights) hsplit (Or.inr (ne_of_gt hS)), ?_⟩
  rw [sumValues_append]
  simp [sumValues]

/-- Witness of C1 on the table A:1, B:1, C:1 with total 10, enumerated in
reverse. -/
theorem distribute_conservation_witness :
    ∃ rewardInfo, distribute id List.reverse [("A", "1"), ("B", "1"), ("C", "1")] 10
        = Outcome.ok rewardInfo ∧ sumValues rewardInfo = 10 :=
  distribute_conservation id List.reverse [("A", "1"), ("B", "1"), ("C", "1")]
    [("A", 1), ("B", 1), ("C", 1)] 10
    (by simp [Denotes]; decide) (by decide) (by decide) (by decide) (by decide)
    (fun m => List.reverse_perm m)

theorem mapGet_of_mem {K V : Type} [DecidableEq K] (m : List (K × V)) (k : K) (v : V)
    (hnodup : (keys m).Nodup) (hmem : (k, v) ∈ m) : mapGet m k = some v := by
  induction m with
  | nil => simp at hmem
  | cons e m ih =>
    obtain ⟨k', v'⟩ := e
    simp only [keys, List.map_cons, List.nodup_cons] at hnodup
    rcases List.mem_cons.mp hmem with h | h
    · injection h with h1 h2
      subst h1 h2
      simp [mapGet]
    · have hne : ¬ k' = k := by
        intro hk
        subst hk
        exact hnodup.1 (List.mem_map_of_mem Prod.fst h)
      simp only [mapGet, hne, if_false]
      exact ih hnodup.2 h

theorem ediv_eq_floor (x S : Int) (hS : 0 < S) : x / S = ⌊((x : ℤ) : ℚ) / ((S : ℤ) : ℚ)⌋ := by
  have h := Rat.floor_intCast_div_natCast x S.toNat
  have hcast : ((S.toNat : ℕ) : ℤ) = S := Int.toNat_of_nonneg (le_of_lt hS)
  have hq : ((S.toNat : ℕ) : ℚ) = ((S : ℤ) : ℚ) := by
    rw [← Int.cast_natCast, hcast]
  rw [hq, hcast] at h
  exact h.symm

theorem distribute_result_lookup {A : Type} [DecidableEq A]
    (rangeOrder : List (A × Int) → List (A × Int)) (weights : List (A × Int))
    (totalAmount : Int) (init : List (A × Int)) (last : A × Int)
    (hnodup : (keys weights).Nodup) (horder : (rangeOrder weights).Perm weights)
    (hsplit : rangeOrder weights = init ++ [last]) (rewardInfo : List (A × Int))
    (hres : rewardInfo = floorShares totalAmount (sumValues weights) init
      ++ [(last.1, totalAmount - sumValues (floorShares totalAmount (sumValues weights) init))]) :
    keys rewardInfo = keys (rangeOrder weights)
      ∧ (∀ e ∈ init, mapGet rewardInfo e.1 = some (totalAmount * e.2 / sumValues weights))
      ∧ mapGet rewardInfo last.1
          = some (totalAmount - sumValues (floorShares totalAmount (sumValues weights) init)) := by
  have hkeys : keys rewardInfo = keys (rangeOrder weights) := by
    rw [hres, hsplit, keys_append, keys_append, keys_floorShares]
    simp [keys]
  have hnd : (keys rewardInfo).Nodup := by
    rw [hkeys]
    exact (List.Perm.nodup_iff (horder.map Prod.fst)).mpr hnodup
  refine ⟨hkeys, ?_, ?_⟩
  · intro e he
    apply mapGet_of_mem rewardInfo _ _ hnd
    rw [hres]
    apply List.mem_append_left
    simp only [floorShares, List.mem_map]
    exact ⟨e, he, rfl⟩
  · apply mapGet_of_mem rewardInfo _ _ hnd
    rw [hres]
    apply List.mem_append_right
    simp

/-- C3: floor-then-remainder rule.  For a weight table with distinct
identities, non-negative weights and positive weight sum, a total that is
not negative and any order of enumeration `init ++ [last]`, `distribute`
returns a mapping over exactly the enumerated identities in which every
participant of `init` holds the floor of `total * weight / sumWeights` and
`last` holds the total minus the sum of the amounts held by the others. -/
theorem distribute_floor_then_remainder {A : Type} [DecidableEq A] (hexToAddress : String → A)
    (rangeOrder : List (A × Int) → List (A × Int))
    (points : List (String × String)) (weights : List (A × Int)) (totalAmount : Int)
    (init : List (A × Int)) (last : A × Int)
    (hden : Denotes hexToAddress points weights) (hnodup : (keys weights).Nodup)
    (hnonneg : ∀ e ∈ weights, 0 ≤ e.2) (hsum : 0 < sumValues weights)
    (htotal : 0 ≤ totalAmount)
    (horder : ∀ m, (rangeOrder m).Perm m)
    (hsplit : rangeOrder weights = init ++ [last]) :
    ∃ rewardInfo, distribute hexToAddress rangeOrder points totalAmount = Outcome.ok rewardInfo
      ∧ keys rewardInfo = keys (rangeOrder weights)
      ∧ (∀ e ∈ init, mapGet rewardInfo e.1
          = some ⌊((totalAmount * e.2 : ℤ) : ℚ) / ((sumValues weights : ℤ) : ℚ)⌋)
      ∧ mapGet rewardInfo last.1
          = some (totalAmount - (init.map (fun e => (mapGet rewardInfo e.1).getD 0)).sum) := by
  have _ := htotal
  have _ := hnonneg
  have heq := distribute_eq hexToAddress rangeOrder points weights totalAmount init last hden
    hnodup (horder weights) hsplit (Or.inr (ne_of_gt hsum))
  obtain ⟨hkeys, hinit, hlast⟩ := distribute_result_lookup rangeOrder weights totalAmount init
    last hnodup (horder weights) hsplit _ rfl
  refine ⟨_, heq, hkeys, ?_, ?_⟩
  · intro e he
    rw [hinit e he, ediv_eq_floor _ _ hsum]
  · rw [hlast]
    congr 2
    generalize floorShares totalAmount (sumValues weights) init
      ++ [(last.1, totalAmount - sumValues (floorShares totalAmount (sumValues weights) init))]
      = rewardInfo at hinit
    simp only [sumValues, floorShares, List.map_map]
    apply congrArg
    apply List.map_congr_left
    intro e he
    simp only [Function.comp_apply]
    rw [hinit e he]
    rfl

/-- Witness of C3 on the table A:1, B:2 with total 10, A enumerated first. -/
theorem distribute_floor_then_remainder_witness :
    ∃ rewardInfo, distribute id id [("A", "1"), ("B", "2")] 10 = Outcome.ok rewardInfo
      ∧ keys rewardInfo = keys (id [("A", (1 : Int)), ("B", 2)])
      ∧ (∀ e ∈ [("A", (1 : Int))], mapGet rewardInfo e.1
          = some ⌊((10 * e.2 : ℤ) : ℚ) / ((sumValues [("A", (1 : Int)), ("B", 2)] : ℤ) : ℚ)⌋)
      ∧ mapGet rewardInfo ("B", (2 : Int)).1
          = some (10 - ([("A", (1 : Int))].map (fun e => (mapGet rewardInfo e.1).getD 0)).sum) :=
  distribute_floor_then_remainder id id [("A", "1"), ("B", "2")] [("A", 1), ("B", 2)] 10
    [("A", 1)] ("B", 2)
    (by simp [Denotes]; decide) (by decide) (by decide) (by decide) (by decide)
    (fun m => List.Perm.refl m) rfl

/-! ## `distribute` on zero and on invalid weights -/

/-- With two or more distinct participants, all of weight zero, `distribute`
panics on the division by the zero weight sum, whatever the total. -/
theorem distribute_zero_weights_panics {A : Type} [DecidableEq A] (hexToAddress : String → A)
    (rangeOrder : List (A × Int) → List (A × Int))
    (points : List (String × String)) (weights : List (A × Int)) (totalAmount : Int)
    (hden : Denotes hexToAddress points weights) (hnodup : (keys weights).Nodup)
    (hzero : ∀ e ∈ weights, e.2 = 0) (htwo : 2 ≤ weights.length)
    (horder : ∀ m, (rangeOrder m).Perm m) :
    distribute hexToAddress rangeOrder points totalAmount = Outcome.panic "division by zero" := by
  have hparse := parseLoop_denotes hexToAddress points weights hden [] 0 (by simpa using hnodup)
  simp only [List.nil_append, zero_add] at hparse
  have hsum : sumValues weights = 0 := by
    unfold sumValues
    apply List.sum_eq_zero
    intro x hx
    simp only [List.mem_map] at hx
    obtain ⟨e, he, rfl⟩ := hx
    exact hzero e he
  have hlen := (horder weights).length_eq
  simp only [distribute, hparse, hsum]
  cases hro : rangeOrder weights with
  | nil =>
    rw [hro] at hlen
    simp only [List.length_nil] at hlen
    omega
  | cons e rest =>
    obtain ⟨addr, point⟩ := e
    have hne : ¬ (0 + 1 = weights.length) := by omega
    simp [assignLoop, hne]

/-- C4 fails on the code: for the single participant A of weight zero and
the total 5, `distribute` returns the mapping that gives A the amount 5; it
returns no error. -/
theorem distribute_zero_weight_counterexample :
    distribute id id [("A", "0")] 5 = Outcome.ok [("A", 5)]
      ∧ ¬ ∃ msg, distribute id id [("A", "0")] 5 = Outcome.error msg := by
  have h : distribute id id [("A", "0")] 5 = Outcome.ok [("A", 5)] := by decide
  refine ⟨h, ?_⟩
  rintro ⟨msg, hmsg⟩
  rw [h] at hmsg
  cases hmsg

/-- C4 as amended: for a weight table of one participant whose weight is
zero, `distribute` returns, for every total, the mapping that gives this
participant the whole total: the amount 0 when the total is 0, and the
total itself, not an error, when the total is positive. -/
theorem distribute_single_zero_weight {A : Type} [DecidableEq A] (hexToAddress : String → A)
    (rangeOrder : List (A × Int) → List (A × Int))
    (key value : String) (totalAmount : Int)
    (hzero : setString10 value = some 0)
    (horder : ∀ m, (rangeOrder m).Perm m) :
    distribute hexToAddress rangeOrder [(key, value)] totalAmount
      = Outcome.ok [(hexToAddress key, totalAmount)] := by
  have hden : Denotes hexToAddress [(key, value)] [(hexToAddress key, 0)] := by
    unfold Denotes
    exact List.Forall₂.cons ⟨rfl, hzero⟩ List.Forall₂.nil
  have hsplit : rangeOrder [(hexToAddress key, (0 : Int))] = [] ++ [(hexToAddress key, 0)] := by
    simpa using horder [(hexToAddress key, (0 : Int))]
  have h := distribute_eq hexToAddress rangeOrder [(key, value)] [(hexToAddress key, 0)]
    totalAmount [] (hexToAddress key, 0) hden (by simp [keys])
    (horder _) hsplit (Or.inl rfl)
  simpa [floorShares, sumValues] using h

/-- Witness of the amended C4: the table A:0 with the total 5. -/
theorem distribute_single_zero_weight_witness :
    distribute id id [("A", "0")] 5 = Outcome.ok [(id "A", 5)] :=
  distribute_single_zero_weight id id "A" "0" 5 (by decide) (fun m => List.Perm.refl m)

theorem parseLoop_unparsable {A : Type} [DecidableEq A] (hexToAddress : String → A)
    (points : List (String × String))
    (hbad : ∃ kv ∈ points, setString10 kv.2 = none) :
    ∀ (pointInfo : List (A × Int)) (totalPoints : Int),
      parseLoop hexToAddress points pointInfo totalPoints = none := by
  induction points with
  | nil => simp at hbad
  | cons kv rest ih =>
    intro pointInfo totalPoints
    obtain ⟨key, value⟩ := kv
    cases hv : setString10 value with
    | none => simp [parseLoop, hv]
    | some point =>
      obtain ⟨bad, hmem, hnone⟩ := hbad
      rcases List.mem_cons.mp hmem with h | h
      · subst h
        simp only at hnone
        rw [hv] at hnone
        cases hnone
      · simp only [parseLoop, hv]
        exact ih ⟨bad, h, hnone⟩ _ _

/-- C5 fails on the code: the weight string "-5" denotes a negative integer
and `distribute` accepts it; for the table A:"-5", B:"10" and the total 10
it returns the mapping A:-10, B:20 and no error. -/
theorem distribute_negative_weight_counterexample :
    distribute id id [("A", "-5"), ("B", "10")] 10 = Outcome.ok [("A", -10), ("B", 20)]
      ∧ ¬ ∃ msg, distribute id id [("A", "-5"), ("B", "10")] 10 = Outcome.error msg := by
  have h : distribute id id [("A", "-5"), ("B", "10")] 10
      = Outcome.ok [("A", -10), ("B", 20)] := by decide
  refine ⟨h, ?_⟩
  rintro ⟨msg, hmsg⟩
  rw [h] at hmsg
  cases hmsg

/-- C5 as amended: when at least one weight string of the table is not an
optionally signed sequence of decimal digits (`SetString` reports failure),
the first loop of `distribute` fails, and `distribute` returns the error
"amount parsing failed" and no distribution, for every total and every
enumeration order: no amount is computed. -/
theorem distribute_rejects_unparsable {A : Type} [DecidableEq A] (hexToAddress : String → A)
    (rangeOrder : List (A × Int) → List (A × Int))
    (points : List (String × String)) (totalAmount : Int)
    (hbad : ∃ kv ∈ points, setString10 kv.2 = none) :
    parseLoop hexToAddress points [] 0 = none
      ∧ distribute hexToAddress rangeOrder points totalAmount
          = Outcome.error "amount parsing failed" := by
  have h := parseLoop_unparsable hexToAddress points hbad [] 0
  exact ⟨h, by simp only [distribute, h]⟩

/-- Witness of the amended C5: the table A:"1", B:"1.5" with the total 10. -/
theorem distribute_rejects_unparsable_witness :
    parseLoop id [("A", "1"), ("B", "1.5")] [] 0 = none
      ∧ distribute id id [("A", "1"), ("B", "1.5")] 10 = Outcome.error "amount parsing failed" :=
  distribute_rejects_unparsable id id [("A", "1"), ("B", "1.5")] 10
    ⟨("B", "1.5"), by simp, by decide⟩

/-! ## The ledger merge -/

theorem copyLoop_eq {A : Type} [DecidableEq A] (a : List (A × Int)) :
    ∀ (finalRewardInfo : List (A × Int)), (keys (finalRewardInfo ++ a)).Nodup →
      copyLoop a finalRewardInfo = finalRewardInfo ++ a := by
  induction a with
  | nil =>
    intro f _
    simp [copyLoop]
  | cons e rest ih =>
    intro f hnodup
    obtain ⟨key, value⟩ := e
    have hnot : key ∉ keys f := by
      rw [keys_append, List.nodup_append] at hnodup
      intro hmem
      exact hnodup.2.2 hmem (by simp [keys])
    have hnodup' : (keys ((f ++ [(key, value)]) ++ rest)).Nodup := by
      simpa [keys] using hnodup
    simp only [copyLoop]
    rw [mapSet_of_not_mem f key value hnot, ih _ hnodup']
    simp

theorem mapGet_addLoop {A : Type} [DecidableEq A] (b : List (A × Int)) :
    ∀ (finalRewardInfo : List (A × Int)) (k : A), (keys b).Nodup →
      mapGet (addLoop b finalRewardInfo) k
        = mergeValue (mapGet finalRewardInfo k) (mapGet b k) := by
  induction b with
  | nil =>
    intro f k _
    cases h : mapGet f k <;> simp [addLoop, mapGet, mergeValue, h]
  | cons e rest ih =>
    intro f k hnodup
    obtain ⟨key, value⟩ := e
    simp only [keys, List.map_cons, List.nodup_cons] at hnodup
    have hrest : (keys rest).Nodup := hnodup.2
    by_cases hk : key = k
    · subst hk
      have hnone : mapGet rest key = none := (mapGet_eq_none_iff rest key).mpr hnodup.1
      cases hf : mapGet f key with
      | none =>
        simp only [addLoop, hf]
        rw [ih _ _ hrest, mapGet_mapSet_self, hnone]
        simp [mapGet, mergeValue]
      | some v =>
        simp only [addLoop, hf]
        rw [ih _ _ hrest, mapGet_mapSet_self, hnone]
        simp [mapGet, mergeValue]
    · cases hf : mapGet f key with
      | none =>
        simp only [addLoop, hf]
        rw [ih _ _ hrest, mapGet_mapSet_ne _ _ _ _ hk]
        simp [mapGet, hk]
      | some v =>
        simp only [addLoop, hf]
        rw [ih _ _ hrest, mapGet_mapSet_ne _ _ _ _ hk]
        simp [mapGet, hk]

theorem nodup_keys_addLoop {A : Type} [DecidableEq A] (b : List (A × Int)) :
    ∀ (finalRewardInfo : List (A × Int)), (keys finalRewardInfo).Nodup →
      (keys (addLoop b finalRewardInfo)).Nodup := by
  induction b with
  | nil =>
    intro f hf
    simpa [addLoop] using hf
  | cons e rest ih =>
    intro f hf
    obtain ⟨key, value⟩ := e
    cases hg : mapGet f key with
    | none =>
      simp only [addLoop, hg]
      exact ih _ (nodup_keys_mapSet f key _ hf)
    | some v =>
      simp only [addLoop, hg]
      exact ih _ (nodup_keys_mapSet f key _ hf)

theorem sumValues_addLoop {A : Type} [DecidableEq A] (b : List (A × Int)) :
    ∀ (finalRewardInfo : List (A × Int)),
      sumValues (addLoop b finalRewardInfo) = sumValues finalRewardInfo + sumValues b := by
  induction b with
  | nil =>
    intro f
    simp [addLoop, sumValues]
  | cons e rest ih =>
    intro f
    obtain ⟨key, value⟩ := e
    cases hg : mapGet f key with
    | none =>
      simp only [addLoop, hg]
      rw [ih, sumValues_mapSet, hg, sumValues_cons]
      simp only [Option.getD_none]
      ring
    | some v =>
      simp only [addLoop, hg]
      rw [ih, sumValues_mapSet, hg, sumValues_cons]
      simp only [Option.getD_some]
      ring

theorem copyLoop_nil {A : Type} [DecidableEq A] (a : List (A × Int)) (ha : (keys a).Nodup) :
    copyLoop a [] = a := by
  have h := copyLoop_eq a [] (by simpa using ha)
  simpa using h

theorem mapGet_merge {A : Type} [DecidableEq A] (a b : List (A × Int))
    (ha : (keys a).Nodup) (hb : (keys b).Nodup) (k : A) :
    mapGet (mergeRewardInfo a b) k = mergeValue (mapGet a k) (mapGet b k) := by
  unfold mergeRewardInfo
  rw [copyLoop_nil a ha, mapGet_addLoop b a k hb]

theorem nodup_keys_merge {A : Type} [DecidableEq A] (a b : List (A × Int))
    (ha : (keys a).Nodup) : (keys (mergeRewardInfo a b)).Nodup := by
  unfold mergeRewardInfo
  rw [copyLoop_nil a ha]
  exact nodup_keys_addLoop b a ha

theorem sumValues_merge {A : Type} [DecidableEq A] (a b : List (A × Int))
    (ha : (keys a).Nodup) :
    sumValues (mergeRewardInfo a b) = sumValues a + sumValues b := by
  unfold mergeRewardInfo
  rw [copyLoop_nil a ha, sumValues_addLoop]

theorem mem_keys_merge {A : Type} [DecidableEq A] (a b : List (A × Int))
    (ha : (keys a).Nodup) (hb : (keys b).Nodup) (k : A) :
    k ∈ keys (mergeRewardInfo a b) ↔ k ∈ keys a ∨ k ∈ keys b := by
  rw [← mapGet_isSome_iff, ← mapGet_isSome_iff, ← mapGet_isSome_iff, mapGet_merge a b ha hb]
  cases mapGet a k <;> cases mapGet b k <;> simp [mergeValue]

theorem pointwiseMerge_merge {A : Type} [DecidableEq A] (a b : List (A × Int))
    (ha : (keys a).Nodup) (hb : (keys b).Nodup) :
    PointwiseMerge a b (mergeRewardInfo a b) := by
  refine ⟨nodup_keys_merge a b ha, mem_keys_merge a b ha hb, ?_, ?_, ?_⟩
  · intro k x hx hy
    rw [mapGet_merge a b ha hb, hx, hy]
    rfl
  · intro k y hx hy
    rw [mapGet_merge a b ha hb, hx, hy]
    rfl
  · intro k x y hx hy
    rw [mapGet_merge a b ha hb, hx, hy]
    simp [mergeValue, add_comm]

theorem sumLoop1_denotes {A : Type} [DecidableEq A] (hexToAddress : String → A)
    (points : List (String × String)) (weights : List (A × Int))
    (hden : Denotes hexToAddress points weights) :
    ∀ (totalPoints : List (A × Int)), (keys (totalPoints ++ weights)).Nodup →
      sumLoop1 hexToAddress points totalPoints = some (totalPoints ++ weights) := by
  unfold Denotes at hden
  induction hden with
  | nil =>
    intro totalPoints _
    simp [sumLoop1]
  | @cons kv e ps ws hhead _ ih =>
    intro totalPoints hnodup
    obtain ⟨key, value⟩ := kv
    obtain ⟨hkey, hval⟩ := hhead
    simp only at hkey hval
    have hnot : e.1 ∉ keys totalPoints := by
      rw [keys_append, List.nodup_append] at hnodup
      intro hmem
      exact hnodup.2.2 hmem (by simp [keys])
    have hnodup' : (keys ((totalPoints ++ [(e.1, e.2)]) ++ ws)).Nodup := by
      simpa [keys] using hnodup
    simp only [sumLoop1, hval, hkey]
    rw [mapSet_of_not_mem totalPoints e.1 e.2 hnot, ih _ hnodup']
    simp

theorem sumLoop2_denotes {A : Type} [DecidableEq A] (hexToAddress : String → A)
    (points : List (String × String)) (weights : List (A × Int))
    (hden : Denotes hexToAddress points weights) :
    ∀ (totalPoints : List (A × Int)),
      sumLoop2 hexToAddress points totalPoints = some (addLoop weights totalPoints) := by
  unfold Denotes at hden
  induction hden with
  | nil =>
    intro totalPoints
    simp [sumLoop2, addLoop]
  | @cons kv e ps ws hhead _ ih =>
    intro totalPoints
    obtain ⟨key, value⟩ := kv
    obtain ⟨addr, point⟩ := e
    obtain ⟨hkey, hval⟩ := hhead
    simp only at hkey hval
    cases hg : mapGet totalPoints addr with
    | none =>
      simp only [sumLoop2, hval, hkey, hg, addLoop]
      exact ih _
    | some cur =>
      simp only [sumLoop2, hval, hkey, hg, addLoop]
      rw [add_comm cur point]
      exact ih _

theorem sumReward_eq {A : Type} [DecidableEq A] (hexToAddress : String → A)
    (p1 p2 : List (String × String)) (a b : List (A × Int))
    (hd1 : Denotes hexToAddress p1 a) (hd2 : Denotes hexToAddress p2 b)
    (ha : (keys a).Nodup) :
    sumReward hexToAddress p1 p2 = Outcome.ok (mergeRewardInfo a b) := by
  have h1 := sumLoop1_denotes hexToAddress p1 a hd1 [] (by simpa using ha)
  simp only [List.nil_append] at h1
  simp only [sumReward, h1, sumLoop2_denotes hexToAddress p2 b hd2 a, mergeRewardInfo,
    copyLoop_nil a ha]

theorem mergeValue_comm (x y : Option Int) : mergeValue x y = mergeValue y x := by
  cases x <;> cases y <;> simp [mergeValue, add_comm]

theorem mergeValue_assoc (x y z : Option Int) :
    mergeValue (mergeValue x y) z = mergeValue x (mergeValue y z) := by
  cases x <;> cases y <;> cases z <;> simp [mergeValue, add_assoc]

/-- C6: pointwise definition of merge.  For two ledgers with distinct
identities each, the ledger merged by `calcReward`, and the table merged by
`sumReward` from two weight files denoting these ledgers, have exactly the
identities of the two ledgers, each once; an identity only in the first
holds the first amount, one only in the second the second amount, one in
both the exact sum. -/
theorem merge_pointwise {A : Type} [DecidableEq A] (hexToAddress : String → A)
    (a b : List (A × Int)) (p1 p2 : List (String × String))
    (ha : (keys a).Nodup) (hb : (keys b).Nodup)
    (hd1 : Denotes hexToAddress p1 a) (hd2 : Denotes hexToAddress p2 b) :
    PointwiseMerge a b (mergeRewardInfo a b)
      ∧ ∃ totalPoints, sumReward hexToAddress p1 p2 = Outcome.ok totalPoints
          ∧ PointwiseMerge a b totalPoints :=
  ⟨pointwiseMerge_merge a b ha hb, mergeRewardInfo a b,
    sumReward_eq hexToAddress p1 p2 a b hd1 hd2 ha, pointwiseMerge_merge a b ha hb⟩

/-- Witness of C6: the ledgers A:3, B:7 and B:2, C:8. -/
theorem merge_pointwise_witness :
    PointwiseMerge [("A", 3), ("B", 7)] [("B", 2), ("C", 8)]
        (mergeRewardInfo [("A", 3), ("B", 7)] [("B", 2), ("C", 8)])
      ∧ ∃ totalPoints, sumReward id [("A", "3"), ("B", "7")] [("B", "2"), ("C", "8")]
            = Outcome.ok totalPoints
          ∧ PointwiseMerge [("A", 3), ("B", 7)] [("B", 2), ("C", 8)] totalPoints :=
  merge_pointwise id [("A", 3), ("B", 7)] [("B", 2), ("C", 8)]
    [("A", "3"), ("B", "7")] [("B", "2"), ("C", "8")] (by decide) (by decide)
    (by simp [Denotes]; decide) (by simp [Denotes]; decide)

/-- C7: merge preserves conservation.  When the amounts of the ledger `a`
sum to `T_a` and those of `b` to `T_b`, the amounts of the ledger merged by
`calcReward` sum to `T_a + T_b`, and the final check of `calcReward` against
the sum of the two totals returns true. -/
theorem merge_preserves_conservation {A : Type} [DecidableEq A] (a b : List (A × Int))
    (T_a T_b : Int) (ha : (keys a).Nodup)
    (hsa : sumValues a = T_a) (hsb : sumValues b = T_b) :
    sumValues (mergeRewardInfo a b) = T_a + T_b ∧ finalCheck a b T_a T_b = true := by
  have hsum : sumValues (mergeRewardInfo a b) = T_a + T_b := by
    rw [sumValues_merge a b ha, hsa, hsb]
  refine ⟨hsum, ?_⟩
  unfold finalCheck
  apply check_of_sum_eq
  rw [hsum, add_comm]

/-- Witness of C7: A:3, B:7 (total 10) merged with B:2, C:8 (total 10). -/
theorem merge_preserves_conservation_witness :
    sumValues (mergeRewardInfo [("A", 3), ("B", 7)] [("B", 2), ("C", 8)]) = 10 + 10
      ∧ finalCheck [("A", 3), ("B", 7)] [("B", 2), ("C", 8)] 10 10 = true :=
  merge_preserves_conservation [("A", 3), ("B", 7)] [("B", 2), ("C", 8)] 10 10
    (by decide) (by decide) (by decide)

/-- C8: merge is commutative and associative in value.  For ledgers `a`,
`b`, `c` with distinct identities each, merging `a` with `b` and `b` with
`a` gives every identity the same entry, and so does merging `a`, `b`, `c`
in either grouping; the same holds for the two argument orders of
`sumReward` on weight files denoting `a` and `b`. -/
theorem merge_comm_assoc {A : Type} [DecidableEq A] (hexToAddress : String → A)
    (a b c : List (A × Int)) (p1 p2 : List (String × String))
    (ha : (keys a).Nodup) (hb : (keys b).Nodup) (hc : (keys c).Nodup)
    (hd1 : Denotes hexToAddress p1 a) (hd2 : Denotes hexToAddress p2 b) :
    (∀ k, mapGet (mergeRewardInfo a b) k = mapGet (mergeRewardInfo b a) k)
      ∧ (∀ k, mapGet (mergeRewardInfo (mergeRewardInfo a b) c) k
          = mapGet (mergeRewardInfo a (mergeRewardInfo b c)) k)
      ∧ ∃ m1 m2, sumReward hexToAddress p1 p2 = Outcome.ok m1
          ∧ sumReward hexToAddress p2 p1 = Outcome.ok m2
          ∧ ∀ k, mapGet m1 k = mapGet m2 k := by
  have hcomm : ∀ k, mapGet (mergeRewardInfo a b) k = mapGet (mergeRewardInfo b a) k := by
    intro k
    rw [mapGet_merge a b ha hb, mapGet_merge b a hb ha, mergeValue_comm]
  refine ⟨hcomm, ?_, mergeRewardInfo a b, mergeRewardInfo b a,
    sumReward_eq hexToAddress p1 p2 a b hd1 hd2 ha,
    sumReward_eq hexToAddress p2 p1 b a hd2 hd1 hb, hcomm⟩
  intro k
  rw [mapGet_merge _ c (nodup_keys_merge a b ha) hc, mapGet_merge a b ha hb,
    mapGet_merge a _ ha (nodup_keys_merge b c hb), mapGet_merge b c hb hc, mergeValue_assoc]

/-- Witness of C8: the ledgers A:3, B:7, then B:2, C:8, then A:1, C:1. -/
theorem merge_comm_assoc_witness :
    (∀ k, mapGet (mergeRewardInfo [("A", 3), ("B", 7)] [("B", 2), ("C", 8)]) k
        = mapGet (mergeRewardInfo [("B", 2), ("C", 8)] [("A", 3), ("B", 7)]) k)
      ∧ (∀ k, mapGet (mergeRewardInfo (mergeRewardInfo [("A", 3), ("B", 7)] [("B", 2), ("C", 8)])
            [("A", 1), ("C", 1)]) k
          = mapGet (mergeRewardInfo [("A", 3), ("B", 7)]
            (mergeRewardInfo [("B", 2), ("C", 8)] [("A", 1), ("C", 1)])) k)
      ∧ ∃ m1 m2, sumReward id [("A", "3"), ("B", "7")] [("B", "2"), ("C", "8")] = Outcome.ok m1
          ∧ sumReward id [("B", "2"), ("C", "8")] [("A", "3"), ("B", "7")] = Outcome.ok m2
          ∧ ∀ k, mapGet m1 k = mapGet m2 k :=
  merge_comm_assoc id [("A", 3), ("B", 7)] [("B", 2), ("C", 8)] [("A", 1), ("C", 1)]
    [("A", "3"), ("B", "7")] [("B", "2"), ("C", "8")] (by decide) (by decide) (by decide)
    (by simp [Denotes]; decide) (by simp [Denotes]; decide)

/-! ## The running totals of the monthly aggregator -/

theorem wrapInt_add_wrapInt (x y : Int) : wrapInt (wrapInt x + y) = wrapInt (x + y) := by
  unfold wrapInt
  omega

theorem wrapInt_of_isInt (x : Int) (h : isInt x) : wrapInt x = x := by
  unfold isInt at h
  unfold wrapInt
  omega

theorem daysOf_append {R : Type} (key : R → String) (days : R → Int) (l1 l2 : List R)
    (k : String) : daysOf key days (l1 ++ l2) k = daysOf key days l1 k + daysOf key days l2 k := by
  simp [daysOf, List.filter_append]

theorem daysOf_singleton_self {R : Type} (key : R → String) (days : R → Int) (r : R) :
    daysOf key days [r] (key r) = days r := by
  simp [daysOf]

theorem daysOf_singleton_ne {R : Type} (key : R → String) (days : R → Int) (r : R) (k : String)
    (h : key r ≠ k) : daysOf key days [r] k = 0 := by
  simp [daysOf, h]

theorem daysOf_of_absent {R : Type} (key : R → String) (days : R → Int) (records : List R)
    (k : String) (h : ∀ r ∈ records, key r ≠ k) : daysOf key days records k = 0 := by
  have hnil : records.filter (fun r => decide (key r = k)) = [] := by
    rw [List.filter_eq_nil_iff]
    intro r hr
    simpa using h r hr
  simp [daysOf, hnil]

theorem accStep_inv {R T : Type} (key : R → String) (days : R → Int) (tdays : T → Int)
    (create : R → T) (update : T → R → T)
    (hcreate : ∀ r, tdays (create r) = days r)
    (hupdate : ∀ t r, tdays (update t r) = addInt (tdays t) (days r))
    (m : List (String × T)) (prev : List R) (r : R) (hr : isInt (days r))
    (hnone : ∀ k, mapGet m k = none ↔ ∀ x ∈ prev, key x ≠ k)
    (hsome : ∀ k t, mapGet m k = some t → tdays t = wrapInt (daysOf key days prev k)) :
    (∀ k, mapGet (accStep key create update m r) k = none ↔ ∀ x ∈ prev ++ [r], key x ≠ k)
      ∧ (∀ k t, mapGet (accStep key create update m r) k = some t →
          tdays t = wrapInt (daysOf key days (prev ++ [r]) k)) := by
  have hget : ∀ k, key r ≠ k → mapGet (accStep key create update m r) k = mapGet m k := by
    intro k hk
    unfold accStep
    cases mapGet m (key r) <;> exact mapGet_mapSet_ne _ _ _ _ hk
  constructor
  · intro k
    by_cases hk : key r = k
    · subst hk
      constructor
      · intro h
        unfold accStep at h
        cases hm : mapGet m (key r) <;> rw [hm] at h <;> simp only [mapGet_mapSet_self] at h <;>
          cases h
      · intro h
        exact absurd rfl (h r (by simp))
    · rw [hget k hk, hnone k]
      constructor
      · intro h x hx
        rcases List.mem_append.mp hx with hx | hx
        · exact h x hx
        · simp only [List.mem_singleton] at hx
          subst hx
          exact hk
      · intro h x hx
        exact h x (List.mem_append_left _ hx)
  · intro k t ht
    by_cases hk : key r = k
    · subst hk
      rw [daysOf_append, daysOf_singleton_self]
      unfold accStep at ht
      cases hm : mapGet m (key r) with
      | none =>
        rw [hm] at ht
        simp only [mapGet_mapSet_self, Option.some.injEq] at ht
        subst ht
        rw [hcreate, daysOf_of_absent key days prev (key r) ((hnone (key r)).mp hm), zero_add,
          wrapInt_of_isInt _ hr]
      | some t0 =>
        rw [hm] at ht
        simp only [mapGet_mapSet_self, Option.some.injEq] at ht
        subst ht
        rw [hupdate, hsome (key r) t0 hm]
        unfold addInt
        exact wrapInt_add_wrapInt _ _
    · rw [hget k hk] at ht
      rw [daysOf_append, daysOf_singleton_ne key days r k hk, add_zero]
      exact hsome k t ht

theorem foldl_accStep_inv {R T : Type} (key : R → String) (days : R → Int) (tdays : T → Int)
    (create : R → T) (update : T → R → T)
    (hcreate : ∀ r, tdays (create r) = days r)
    (hupdate : ∀ t r, tdays (update t r) = addInt (tdays t) (days r))
    (records : List R) :
    ∀ (m : List (String × T)) (prev : List R), (∀ r ∈ records, isInt (days r)) →
      (∀ k, mapGet m k = none ↔ ∀ x ∈ prev, key x ≠ k) →
      (∀ k t, mapGet m k = some t → tdays t = wrapInt (daysOf key days prev k)) →
      (∀ k, mapGet (records.foldl (accStep key create update) m) k = none
          ↔ ∀ x ∈ prev ++ records, key x ≠ k)
        ∧ (∀ k t, mapGet (records.foldl (accStep key create update) m) k = some t →
            tdays t = wrapInt (daysOf key days (prev ++ records) k)) := by
  induction records with
  | nil =>
    intro m prev _ hnone hsome
    simpa using ⟨hnone, hsome⟩
  | cons r rest ih =>
    intro m prev hint hnone hsome
    obtain ⟨h1, h2⟩ := accStep_inv key days tdays create update hcreate hupdate m prev r
      (hint r (List.mem_cons_self r rest)) hnone hsome
    have h := ih (accStep key create update m r) (prev ++ [r])
      (fun x hx => hint x (List.mem_cons_of_mem r hx)) h1 h2
    simpa using h

theorem accStep_totals {R T : Type} (key : R → String) (days : R → Int) (tdays : T → Int)
    (create : R → T) (update : T → R → T)
    (hcreate : ∀ r, tdays (create r) = days r)
    (hupdate : ∀ t r, tdays (update t r) = addInt (tdays t) (days r))
    (records : List R) (hint : ∀ r ∈ records, isInt (days r)) :
    (∀ k, k ∈ keys (records.foldl (accStep key create update) []) ↔ ∃ r ∈ records, key r = k)
      ∧ (∀ k t, mapGet (records.foldl (accStep key create update) []) k = some t →
          tdays t = wrapInt (daysOf key days records k)
            ∧ (isInt (daysOf key days records k) → tdays t = daysOf key days records k)) := by
  obtain ⟨h1, h2⟩ := foldl_accStep_inv key days tdays create update hcreate hupdate records
    [] [] hint (by simp [mapGet]) (by simp [mapGet])
  simp only [List.nil_append] at h1 h2
  constructor
  · intro k
    rw [← not_iff_not, ← mapGet_eq_none_iff, h1 k]
    simp
  · intro k t ht
    refine ⟨h2 k t ht, fun hfit => ?_⟩
    rw [h2 k t ht, wrapInt_of_isInt _ hfit]

theorem ownerStep_totalOwnerRewards {F : Type} (addF : F → F → F) (month : String)
    (st : RunState F) (r : OwnerReward F) :
    (ownerStep addF month st r).totalOwnerRewards
      = accStep (fun r => r.OwnerAddress) ownerCreate (ownerUpdate addF) st.totalOwnerRewards r := by
  unfold ownerStep accStep
  cases mapGet st.totalOwnerRewards r.OwnerAddress <;> rfl

theorem ownerStep_totalValidatorRewards {F : Type} (addF : F → F → F) (month : String)
    (st : RunState F) (r : OwnerReward F) :
    (ownerStep addF month st r).totalValidatorRewards = st.totalValidatorRewards := by
  unfold ownerStep
  cases mapGet st.totalOwnerRewards r.OwnerAddress <;> rfl

theorem validatorStep_totalValidatorRewards {F : Type} (addF : F → F → F) (month : String)
    (st : RunState F) (r : ValidatorReward F) :
    (validatorStep addF month st r).totalValidatorRewards
      = accStep (fun r => r.PublicKey) id (validatorUpdate addF) st.totalValidatorRewards r := by
  unfold validatorStep accStep
  cases mapGet st.totalValidatorRewards r.PublicKey <;> rfl

theorem validatorStep_totalOwnerRewards {F : Type} (addF : F → F → F) (month : String)
    (st : RunState F) (r : ValidatorReward F) :
    (validatorStep addF month st r).totalOwnerRewards = st.totalOwnerRewards := by
  unfold validatorStep
  cases mapGet st.totalValidatorRewards r.PublicKey <;> rfl

theorem foldl_ownerStep {F : Type} (addF : F → F → F) (month : String)
    (records : List (OwnerReward F)) :
    ∀ st : RunState F,
      (records.foldl (ownerStep addF month) st).totalOwnerRewards
          = records.foldl (accStep (fun r => r.OwnerAddress) ownerCreate (ownerUpdate addF))
              st.totalOwnerRewards
        ∧ (records.foldl (ownerStep addF month) st).totalValidatorRewards
          = st.totalValidatorRewards := by
  induction records with
  | nil =>
    intro st
    exact ⟨rfl, rfl⟩
  | cons r rest ih =>
    intro st
    obtain ⟨h1, h2⟩ := ih (ownerStep addF month st r)
    simp only [List.foldl_cons]
    rw [h1, h2, ownerStep_totalOwnerRewards, ownerStep_totalValidatorRewards]
    exact ⟨rfl, rfl⟩

theorem foldl_validatorStep {F : Type} (addF : F → F → F) (month : String)
    (records : List (ValidatorReward F)) :
    ∀ st : RunState F,
      (records.foldl (validatorStep addF month) st).totalValidatorRewards
          = records.foldl (accStep (fun r => r.PublicKey) id (validatorUpdate addF))
              st.totalValidatorRewards
        ∧ (records.foldl (validatorStep addF month) st).totalOwnerRewards
          = st.totalOwnerRewards := by
  induction records with
  | nil =>
    intro st
    exact ⟨rfl, rfl⟩
  | cons r rest ih =>
    intro st
    obtain ⟨h1, h2⟩ := ih (validatorStep addF month st r)
    simp only [List.foldl_cons]
    rw [h1, h2, validatorStep_totalValidatorRewards, validatorStep_totalOwnerRewards]
    exact ⟨rfl, rfl⟩

theorem foldl_monthStep {F : Type} (addF : F → F → F) (months : List (MonthData F)) :
    ∀ st : RunState F,
      (months.foldl (monthStep addF) st).totalOwnerRewards
          = (ownerRecords months).foldl
              (accStep (fun r => r.OwnerAddress) ownerCreate (ownerUpdate addF))
              st.totalOwnerRewards
        ∧ (months.foldl (monthStep addF) st).totalValidatorRewards
          = (validatorRecords months).foldl
              (accStep (fun r => r.PublicKey) id (validatorUpdate addF))
              st.totalValidatorRewards := by
  induction months with
  | nil =>
    intro st
    exact ⟨rfl, rfl⟩
  | cons m rest ih =>
    intro st
    obtain ⟨h1, h2⟩ := ih (monthStep addF st m)
    obtain ⟨o1, o2⟩ := foldl_ownerStep addF m.month m.ownerRewards st
    obtain ⟨v1, v2⟩ := foldl_validatorStep addF m.month m.validatorRewards
      ((m.ownerRewards).foldl (ownerStep addF m.month) st)
    simp only [List.foldl_cons, ownerRecords, validatorRecords, List.map_cons,
      List.flatten_cons, List.foldl_append]
    simp only [ownerRecords, validatorRecords] at h1 h2
    rw [h1, h2]
    unfold monthStep
    rw [v2, o1, v1, o2]
    exact ⟨rfl, rfl⟩

/-- C9 fails on the code: owner A has a record with 2^62 accrued days in
each of two months; the exact sum of the two fields is 2^63, and the running
total, a Go `int`, holds -2^63. -/
theorem running_totals_counterexample :
    ∃ total, mapGet (runMonths (fun (_ _ : Unit) => ())
        [⟨"2023-10", [⟨"A", 1, 2 ^ 62, ()⟩], []⟩,
          ⟨"2023-11", [⟨"A", 1, 2 ^ 62, ()⟩], []⟩]).totalOwnerRewards "A" = some total
      ∧ total.TotalAccruedDays = -(2 ^ 63)
      ∧ ownerDays (ownerRecords
          [(⟨"2023-10", [⟨"A", 1, 2 ^ 62, ()⟩], []⟩ : MonthData Unit),
            ⟨"2023-11", [⟨"A", 1, 2 ^ 62, ()⟩], []⟩]) "A" = 2 ^ 63
      ∧ total.TotalAccruedDays ≠ ownerDays (ownerRecords
          [(⟨"2023-10", [⟨"A", 1, 2 ^ 62, ()⟩], []⟩ : MonthData Unit),
            ⟨"2023-11", [⟨"A", 1, 2 ^ 62, ()⟩], []⟩]) "A" :=
  ⟨⟨"A", -(2 ^ 63), ()⟩, by decide, by decide, by decide, by decide⟩

/-- C9 as amended: running totals of the monthly aggregator.  Starting from
empty tables and processing any sequence of months whose accrued-days fields
are Go `int` values, an owner identity (a validator public key) has a
running-total entry if and only if it occurs in a processed record, and the
accrued-days total of that entry is the sum of the accrued-days fields of
the processed records of that identity taken modulo 2^64 in the `int` range:
the exact sum whenever the exact sum is an `int` value. -/
theorem running_totals {F : Type} (addF : F → F → F) (months : List (MonthData F))
    (hown : ∀ r ∈ ownerRecords months, isInt r.TotalAccruedDays)
    (hval : ∀ r ∈ validatorRecords months, isInt r.AccruedDays) :
    (∀ owner, owner ∈ keys (runMonths addF months).totalOwnerRewards
        ↔ ∃ r ∈ ownerRecords months, r.OwnerAddress = owner)
      ∧ (∀ owner total, mapGet (runMonths addF months).totalOwnerRewards owner = some total →
          total.TotalAccruedDays = wrapInt (ownerDays (ownerRecords months) owner)
            ∧ (isInt (ownerDays (ownerRecords months) owner) →
                total.TotalAccruedDays = ownerDays (ownerRecords months) owner))
      ∧ (∀ publicKey, publicKey ∈ keys (runMonths addF months).totalValidatorRewards
          ↔ ∃ r ∈ validatorRecords months, r.PublicKey = publicKey)
      ∧ (∀ publicKey total,
          mapGet (runMonths addF months).totalValidatorRewards publicKey = some total →
          total.AccruedDays = wrapInt (validatorDays (validatorRecords months) publicKey)
            ∧ (isInt (validatorDays (validatorRecords months) publicKey) →
                total.AccruedDays = validatorDays (validatorRecords months) publicKey)) := by
  obtain ⟨h1, h2⟩ := foldl_monthStep addF months (initState F)
  obtain ⟨o1, o2⟩ := accStep_totals (fun r : OwnerReward F => r.OwnerAddress)
    (fun r => r.TotalAccruedDays) (fun t : totalOwnerReward F => t.TotalAccruedDays)
    ownerCreate (ownerUpdate addF) (fun _ => rfl) (fun _ _ => rfl) (ownerRecords months) hown
  obtain ⟨v1, v2⟩ := accStep_totals (fun r : ValidatorReward F => r.PublicKey)
    (fun r => r.AccruedDays) (fun t : ValidatorReward F => t.AccruedDays)
    id (validatorUpdate addF) (fun _ => rfl) (fun _ _ => rfl) (validatorRecords months) hval
  unfold runMonths
  rw [h1, h2]
  exact ⟨o1, o2, v1, v2⟩

/-- Witness of the amended C9 on `sampleMonths`. -/
theorem running_totals_witness :
    (∀ owner, owner ∈ keys (runMonths (fun _ _ => ()) sampleMonths).totalOwnerRewards
        ↔ ∃ r ∈ ownerRecords sampleMonths, r.OwnerAddress = owner)
      ∧ (∀ owner total,
          mapGet (runMonths (fun _ _ => ()) sampleMonths).totalOwnerRewards owner = some total →
          total.TotalAccruedDays = wrapInt (ownerDays (ownerRecords sampleMonths) owner)
            ∧ (isInt (ownerDays (ownerRecords sampleMonths) owner) →
                total.TotalAccruedDays = ownerDays (ownerRecords sampleMonths) owner))
      ∧ (∀ publicKey,
          publicKey ∈ keys (runMonths (fun _ _ => ()) sampleMonths).totalValidatorRewards
          ↔ ∃ r ∈ validatorRecords sampleMonths, r.PublicKey = publicKey)
      ∧ (∀ publicKey total,
          mapGet (runMonths (fun _ _ => ()) sampleMonths).totalValidatorRewards publicKey
            = some total →
          total.AccruedDays = wrapInt (validatorDays (validatorRecords sampleMonths) publicKey)
            ∧ (isInt (validatorDays (validatorRecords sampleMonths) publicKey) →
                total.AccruedDays = validatorDays (validatorRecords sampleMonths) publicKey)) :=
  running_totals (fun _ _ => ()) sampleMonths (by decide) (by decide)

/-! ## The remainder taken by the last participant -/

theorem floorShares_bounds {A : Type} (totalAmount totalPoints : Int) (hS : 0 < totalPoints)
    (init : List (A × Int)) :
    totalPoints * sumValues (floorShares totalAmount totalPoints init)
        ≤ totalAmount * sumValues init
      ∧ totalAmount * sumValues init
        ≤ totalPoints * sumValues (floorShares totalAmount totalPoints init)
          + (init.length : Int) * totalPoints := by
  induction init with
  | nil => simp [floorShares, sumValues]
  | cons e rest ih =>
    obtain ⟨ih1, ih2⟩ := ih
    have hlow : totalAmount * e.2 / totalPoints * totalPoints ≤ totalAmount * e.2 :=
      Int.ediv_mul_le _ (ne_of_gt hS)
    have hup : totalAmount * e.2 < (totalAmount * e.2 / totalPoints + 1) * totalPoints :=
      Int.lt_ediv_add_one_mul_self _ hS
    have hcons : sumValues (floorShares totalAmount totalPoints (e :: rest))
        = totalAmount * e.2 / totalPoints
          + sumValues (floorShares totalAmount totalPoints rest) := by
      simp [floorShares, sumValues]
    rw [hcons, sumValues_cons]
    simp only [List.length_cons, Nat.cast_add, Nat.cast_one]
    constructor
    · nlinarith
    · nlinarith

/-- C10: bound on the remainder.  For a weight table of n distinct
participants with non-negative weights and positive weight sum S, a total
that is not negative and any enumeration order ending in `last`, the amount
that `distribute` gives to `last` is at least the exact share
`total * w_last / S`, a rational number, and exceeds it by at most n - 1. -/
theorem distribute_last_bound {A : Type} [DecidableEq A] (hexToAddress : String → A)
    (rangeOrder : List (A × Int) → List (A × Int))
    (points : List (String × String)) (weights : List (A × Int)) (totalAmount : Int)
    (init : List (A × Int)) (last : A × Int)
    (hden : Denotes hexToAddress points weights) (hnodup : (keys weights).Nodup)
    (hnonneg : ∀ e ∈ weights, 0 ≤ e.2) (hsum : 0 < sumValues weights)
    (htotal : 0 ≤ totalAmount)
    (horder : ∀ m, (rangeOrder m).Perm m)
    (hsplit : rangeOrder weights = init ++ [last]) :
    ∃ rewardInfo amount,
      distribute hexToAddress rangeOrder points totalAmount = Outcome.ok rewardInfo
      ∧ mapGet rewardInfo last.1 = some amount
      ∧ ((totalAmount * last.2 : ℤ) : ℚ) / ((sumValues weights : ℤ) : ℚ) ≤ (amount : ℚ)
      ∧ (amount : ℚ) ≤ ((totalAmount * last.2 : ℤ) : ℚ) / ((sumValues weights : ℤ) : ℚ)
          + ((weights.length : ℚ) - 1) := by
  have _ := htotal
  have _ := hnonneg
  have heq := distribute_eq hexToAddress rangeOrder points weights totalAmount init last hden
    hnodup (horder weights) hsplit (Or.inr (ne_of_gt hsum))
  obtain ⟨_, _, hlast⟩ := distribute_result_lookup rangeOrder weights totalAmount init
    last hnodup (horder weights) hsplit _ rfl
  obtain ⟨hb1, hb2⟩ := floorShares_bounds totalAmount (sumValues weights) hsum init
  have hsplitsum : sumValues weights = sumValues init + last.2 := by
    rw [← sumValues_perm _ _ (horder weights), hsplit, sumValues_append]
    simp [sumValues]
  have hlen : (weights.length : ℚ) - 1 = (init.length : ℚ) := by
    rw [← (horder weights).length_eq, hsplit]
    simp
  refine ⟨_, _, heq, hlast, ?_, ?_⟩
  · generalize sumValues (floorShares totalAmount (sumValues weights) init) = Fl at hb1 hb2 ⊢
    generalize sumValues weights = S at hsum hb1 hb2 hsplitsum ⊢
    generalize sumValues init = I at hb1 hb2 hsplitsum
    have hSq : (0 : ℚ) < (S : ℚ) := by exact_mod_cast hsum
    rw [div_le_iff₀ hSq]
    have hint : totalAmount * last.2 ≤ (totalAmount - Fl) * S := by
      subst hsplitsum
      nlinarith
    exact_mod_cast hint
  · rw [hlen]
    generalize sumValues (floorShares totalAmount (sumValues weights) init) = Fl at hb1 hb2 ⊢
    generalize sumValues weights = S at hsum hb1 hb2 hsplitsum ⊢
    generalize sumValues init = I at hb1 hb2 hsplitsum
    have hSq : (0 : ℚ) < (S : ℚ) := by exact_mod_cast hsum
    rw [← sub_le_iff_le_add, le_div_iff₀ hSq]
    have hint : (totalAmount - Fl - (init.length : Int)) * S ≤ totalAmount * last.2 := by
      subst hsplitsum
      nlinarith
    exact_mod_cast hint

/-- Witness of C10 on the table A:1, B:1, C:1 with total 10, C enumerated
last. -/
theorem distribute_last_bound_witness :
    ∃ rewardInfo amount,
      distribute id id [("A", "1"), ("B", "1"), ("C", "1")] 10 = Outcome.ok rewardInfo
      ∧ mapGet rewardInfo ("C", (1 : Int)).1 = some amount
      ∧ ((10 * ("C", (1 : Int)).2 : ℤ) : ℚ)
          / ((sumValues [("A", (1 : Int)), ("B", 1), ("C", 1)] : ℤ) : ℚ) ≤ (amount : ℚ)
      ∧ (amount : ℚ) ≤ ((10 * ("C", (1 : Int)).2 : ℤ) : ℚ)
          / ((sumValues [("A", (1 : Int)), ("B", 1), ("C", 1)] : ℤ) : ℚ)
          + ((([("A", (1 : Int)), ("B", 1), ("C", 1)] : List (String × Int)).length : ℚ) - 1) :=
  distribute_last_bound id id [("A", "1"), ("B", "1"), ("C", "1")]
    [("A", 1), ("B", 1), ("C", 1)] 10 [("A", 1), ("B", 1)] ("C", 1)
    (by simp [Denotes]; decide) (by decide) (by decide) (by decide) (by decide)
    (fun m => List.Perm.refl m) rfl

/-! ## Dependence of `distribute` on the enumeration order -/

theorem distribute_eq_assignLoop {A : Type} [DecidableEq A] (hexToAddress : String → A)
    (rangeOrder : List (A × Int) → List (A × Int))
    (points : List (String × String)) (weights : List (A × Int)) (totalAmount : Int)
    (hden : Denotes hexToAddress points weights) (hnodup : (keys weights).Nodup) :
    distribute hexToAddress rangeOrder points totalAmount
      = assignLoop totalAmount (sumValues weights) weights.length (rangeOrder weights) 0 0 [] := by
  have hparse := parseLoop_denotes hexToAddress points weights hden [] 0 (by simpa using hnodup)
  simp only [List.nil_append, zero_add] at hparse
  simp only [distribute, hparse]

/-- C11: order dependence of `distribute`.  Two runs on the same weight
table (the files may list it in different orders) with the same total and
the same enumeration order in the second loop return the same outcome, so
the mapping is determined by table, total and enumeration order.  Table and
total alone do not determine it: for the weights A:1, B:2 and the total 10,
enumerating A then B gives A:3, B:7, and enumerating B then A gives B:6,
A:4; each time the participant enumerated last takes the remainder. -/
theorem distribute_order_dependence {A : Type} [DecidableEq A] (hexToAddress : String → A)
    (rangeOrder1 rangeOrder2 : List (A × Int) → List (A × Int))
    (points1 points2 : List (String × String)) (weights1 weights2 : List (A × Int))
    (totalAmount : Int)
    (hden1 : Denotes hexToAddress points1 weights1)
    (hden2 : Denotes hexToAddress points2 weights2)
    (hnodup : (keys weights1).Nodup) (htable : weights1.Perm weights2)
    (horder : rangeOrder1 weights1 = rangeOrder2 weights2) :
    distribute hexToAddress rangeOrder1 points1 totalAmount
        = distribute hexToAddress rangeOrder2 points2 totalAmount
      ∧ (∀ m : List (String × Int), (id m).Perm m)
      ∧ (∀ m : List (String × Int), (List.reverse m).Perm m)
      ∧ ∃ r1 r2,
          distribute id id [("A", "1"), ("B", "2")] 10 = Outcome.ok r1
          ∧ distribute id List.reverse [("A", "1"), ("B", "2")] 10 = Outcome.ok r2
          ∧ mapGet r1 "A" = some 3 ∧ mapGet r1 "B" = some 7
          ∧ mapGet r2 "B" = some 6 ∧ mapGet r2 "A" = some 4
          ∧ mapGet r1 "A" ≠ mapGet r2 "A" := by
  have hnodup2 : (keys weights2).Nodup :=
    (List.Perm.nodup_iff (htable.map Prod.fst)).mp hnodup
  refine ⟨?_, fun m => List.Perm.refl m, fun m => List.reverse_perm m,
    [("A", 3), ("B", 7)], [("B", 6), ("A", 4)], by decide, by decide, by decide, by decide,
    by decide, by decide, by decide⟩
  rw [distribute_eq_assignLoop hexToAddress rangeOrder1 points1 weights1 totalAmount hden1 hnodup,
    distribute_eq_assignLoop hexToAddress rangeOrder2 points2 weights2 totalAmount hden2 hnodup2,
    sumValues_perm weights1 weights2 htable, htable.length_eq, horder]

/-- Witness of C11: the table A:1, B:2 read as A, B and enumerated as
listed, and read as B, A and enumerated in reverse: both runs enumerate A
then B. -/
theorem distribute_order_dependence_witness :
    distribute id id [("A", "1"), ("B", "2")] 10
        = distribute id List.reverse [("B", "2"), ("A", "1")] 10
      ∧ (∀ m : List (String × Int), (id m).Perm m)
      ∧ (∀ m : List (String × Int), (List.reverse m).Perm m)
      ∧ ∃ r1 r2,
          distribute id id [("A", "1"), ("B", "2")] 10 = Outcome.ok r1
          ∧ distribute id List.reverse [("A", "1"), ("B", "2")] 10 = Outcome.ok r2
          ∧ mapGet r1 "A" = some 3 ∧ mapGet r1 "B" = some 7
          ∧ mapGet r2 "B" = some 6 ∧ mapGet r2 "A" = some 4
          ∧ mapGet r1 "A" ≠ mapGet r2 "A" :=
  distribute_order_dependence id id List.reverse [("A", "1"), ("B", "2")]
    [("B", "2"), ("A", "1")] [("A", 1), ("B", 2)] [("B", 2), ("A", 1)] 10
    (by simp [Denotes]; decide) (by simp [Denotes]; decide) (by decide)
    (List.Perm.swap ("B", 2) ("A", 1) []) rfl

end SsvRewards
